import Mathlib

/-!
Verification of the Target Allocation & Leaderboard Scoring frontend
(Bright.Signa). Numbers are modelled as exact rationals (`ℚ`): the
TypeScript source manipulates JS numbers that originate from decimal
input strings, and the spec's arithmetic claims are about the exact
decimal values those computations denote. `Math.round x` is `⌊x + 1/2⌋`,
which is Mathlib's `round`; `Array.prototype.sort` (ES2019+) is a stable
sort, modelled by a stable insertion sort on a key.
-/

namespace BrightSigna

section StableSort

variable {α β : Type} [LinearOrder β]

/-- One step of a stable descending-by-key insertion: the new element `u`
moves past every element whose key is ≥ its own, so equal-key elements
keep their original relative order, exactly as a stable
JS sort with comparator `(a, b) => key b - key a` does. -/
def insertDescBy (key : α → β) (u : α) : List α → List α
  | [] => [u]
  | v :: vs => if key u ≤ key v then v :: insertDescBy key u vs else u :: v :: vs

/-- Stable sort, descending by `key`: model of the ES2019+ stable
`Array.prototype.sort` with comparator `(a, b) => key b - key a`. -/
def sortDescBy (key : α → β) (l : List α) : List α :=
  l.foldl (fun acc u => insertDescBy key u acc) []

theorem insertDescBy_perm (key : α → β) (u : α) (l : List α) :
    (insertDescBy key u l).Perm (u :: l) := by
  induction l with
  | nil => simp [insertDescBy]
  | cons v vs ih =>
    simp only [insertDescBy]
    by_cases h : key u ≤ key v
    · rw [if_pos h]
      exact (ih.cons v).trans (List.Perm.swap u v vs)
    · rw [if_neg h]

theorem foldl_insertDescBy_perm (key : α → β) (l acc : List α) :
    (l.foldl (fun acc u => insertDescBy key u acc) acc).Perm (acc ++ l) := by
  induction l generalizing acc with
  | nil => simp
  | cons u us ih =>
    simp only [List.foldl_cons]
    have h1 := ih (insertDescBy key u acc)
    have h2 : (insertDescBy key u acc ++ us).Perm ((u :: acc) ++ us) :=
      (insertDescBy_perm key u acc).append_right us
    have h3 : ((u :: acc) ++ us).Perm (acc ++ u :: us) := List.perm_middle.symm
    exact (h1.trans h2).trans h3

theorem sortDescBy_perm (key : α → β) (l : List α) : (sortDescBy key l).Perm l := by
  simpa using foldl_insertDescBy_perm key l []

/-- Descending order on keys, as a pairwise relation. -/
def KeyDesc (key : α → β) (a b : α) : Prop := key b ≤ key a

theorem insertDescBy_pairwise (key : α → β) (u : α) {l : List α}
    (h : l.Pairwise (KeyDesc key)) :
    (insertDescBy key u l).Pairwise (KeyDesc key) := by
  induction l with
  | nil => simp [insertDescBy, KeyDesc]
  | cons v vs ih =>
    rw [List.pairwise_cons] at h
    simp only [insertDescBy]
    by_cases hc : key u ≤ key v
    · rw [if_pos hc, List.pairwise_cons]
      refine ⟨fun w hw => ?_, ih h.2⟩
      rcases List.mem_cons.mp ((insertDescBy_perm key u vs).mem_iff.mp hw) with hw2 | hw2
      · subst hw2; exact hc
      · exact h.1 w hw2
    · rw [if_neg hc, List.pairwise_cons]
      push_neg at hc
      refine ⟨fun w hw => ?_, List.pairwise_cons.mpr h⟩
      rcases List.mem_cons.mp hw with hw2 | hw2
      · subst hw2; exact hc.le
      · exact le_trans (h.1 w hw2) hc.le

theorem sortDescBy_pairwise (key : α → β) (l : List α) :
    (sortDescBy key l).Pairwise (KeyDesc key) := by
  suffices h : ∀ acc : List α, acc.Pairwise (KeyDesc key) →
      (l.foldl (fun acc u => insertDescBy key u acc) acc).Pairwise (KeyDesc key) by
    exact h [] (by simp)
  induction l with
  | nil => exact fun acc h => h
  | cons u us ih =>
    intro acc hacc
    exact ih _ (insertDescBy_pairwise key u hacc)

/-- The first element of the descending sort has a maximal key among the
input elements. -/
theorem sortDescBy_head_max (key : α → β) (l : List α) (s : α)
    (hs : (sortDescBy key l).head? = some s) :
    s ∈ l ∧ ∀ t ∈ l, key t ≤ key s := by
  have hperm := sortDescBy_perm key l
  have hsorted := sortDescBy_pairwise key l
  obtain ⟨rest, hrest⟩ : ∃ rest, sortDescBy key l = s :: rest := by
    cases hl : sortDescBy key l with
    | nil => rw [hl] at hs; exact absurd hs (by simp)
    | cons a as =>
      rw [hl] at hs
      simp only [List.head?_cons, Option.some.injEq] at hs
      exact ⟨as, by rw [hs]⟩
  constructor
  · exact hperm.mem_iff.mp (by rw [hrest]; exact List.mem_cons_self s rest)
  · intro t ht
    have hmem := hperm.mem_iff.mpr ht
    rw [hrest] at hmem
    rcases List.mem_cons.mp hmem with hm | hm
    · subst hm; exact le_refl _
    · rw [hrest, List.pairwise_cons] at hsorted
      exact hsorted.1 t hm

end StableSort

/-- Round to 2 decimal places, as in `Math.round(p * 100) / 100`
(ECMAScript `Math.round x = ⌊x + 1/2⌋`, which is Mathlib's `round`). -/
def round2 (p : ℚ) : ℚ := (round (p * 100) : ℤ) / 100

/-- Add `d` to the last entry of a list, as in
`roundedPercentages[roundedPercentages.length - 1] += diff`. -/
def addToLast (d : ℚ) : List ℚ → List ℚ
  | [] => []
  | [x] => [x + d]
  | x :: y :: xs => x :: addToLast d (y :: xs)

theorem addToLast_sum (d : ℚ) (l : List ℚ) (h : l ≠ []) :
    (addToLast d l).sum = l.sum + d := by
  induction l with
  | nil => exact absurd rfl h
  | cons x xs ih =>
    cases xs with
    | nil => simp [addToLast]
    | cons y ys =>
      simp only [addToLast, List.sum_cons]
      rw [ih (by simp)]
      simp only [List.sum_cons]
      ring

/-- The weekly-distribution percentages submitted by `handleSaveTargets`:
each percentage is rounded to 2 decimals, and when the rounded total
deviates from 100 by more than 0.001 the difference to 100 is added to
the last entry. -/
def prepareWeeklyPercentages (weeklyPercentages : List ℚ) : List ℚ :=
  let roundedPercentages := weeklyPercentages.map round2
  let total := roundedPercentages.sum
  if 0 < roundedPercentages.length ∧ 1/1000 < |total - 100| then
    addToLast (100 - total) roundedPercentages
  else roundedPercentages

theorem map_round2_sum (l : List ℚ) :
    ∃ k : ℤ, (l.map round2).sum = (k : ℚ) / 100 := by
  induction l with
  | nil => exact ⟨0, by simp⟩
  | cons x xs ih =>
    obtain ⟨k, hk⟩ := ih
    refine ⟨round (x * 100) + k, ?_⟩
    simp only [List.map_cons, List.sum_cons, hk, round2]
    push_cast
    ring

/-- C1: whenever targets are saved for a period with at least one week,
the weekly-distribution percentages submitted by `handleSaveTargets`
(each rounded to 2 decimals, with the last week's entry adjusted by the
difference to 100 when the rounded total deviates from 100 by more than
0.001) sum to exactly 100. -/
theorem save_distribution_sums_to_100 (weeklyPercentages : List ℚ)
    (h : weeklyPercentages ≠ []) :
    (prepareWeeklyPercentages weeklyPercentages).sum = 100 := by
  unfold prepareWeeklyPercentages
  set r := weeklyPercentages.map round2 with hr
  have hlen : 0 < r.length := by
    rw [hr, List.length_map]
    exact List.length_pos.mpr h
  have hne : r ≠ [] := List.length_pos.mp hlen
  by_cases hc : 1/1000 < |r.sum - 100|
  · rw [if_pos ⟨hlen, hc⟩, addToLast_sum _ _ hne]
    ring
  · rw [if_neg (by tauto)]
    push_neg at hc
    obtain ⟨k, hk⟩ := map_round2_sum weeklyPercentages
    rw [← hr] at hk
    rw [hk] at hc ⊢
    have habs : |(k:ℚ)/100 - 100| * 100 = |(k:ℚ) - 10000| := by
      have h100 : (100 : ℚ) = |100| := by norm_num
      rw [mul_comm]
      nth_rewrite 1 [h100]
      rw [← abs_mul]
      congr 1
      ring
    have h10 : |(k:ℚ) - 10000| ≤ 1/10 := by
      rw [← habs]
      calc |(k:ℚ)/100 - 100| * 100 ≤ (1/1000) * 100 :=
            mul_le_mul_of_nonneg_right hc (by norm_num)
        _ = 1/10 := by norm_num
    have hcast : |(k:ℚ) - 10000| = ((|k - 10000| : ℤ) : ℚ) := by
      rw [Int.cast_abs]
      push_cast
      ring_nf
    have hzero : |k - 10000| = 0 := by
      by_contra hne0
      have h1 : (1:ℤ) ≤ |k - 10000| :=
        Int.one_le_abs (fun hh => hne0 (by rw [hh]; simp))
      have h2 : (1:ℚ) ≤ ((|k - 10000| : ℤ) : ℚ) := by exact_mod_cast h1
      rw [← hcast] at h2
      linarith
    have hk10000 : k = 10000 := by
      have := abs_eq_zero.mp hzero
      omega
    rw [hk10000]
    norm_num

/-- Witness for C1 at the concrete distribution [33.33, 33.33, 33.33]. -/
theorem save_distribution_sums_to_100_witness :
    (prepareWeeklyPercentages [3333/100, 3333/100, 3333/100]).sum = 100 :=
  save_distribution_sums_to_100 [3333/100, 3333/100, 3333/100] (by simp)

/-- A user's multi-month aggregate, as accumulated into `userMap` in the
Leaderboard component: `total_target` and `total_achieved` summed over
the weekly-progress rows of the periods in range. -/
structure AggUser where
  user_id : ℕ
  total_target : ℚ
  total_achieved : ℚ
deriving DecidableEq

/-- A leaderboard row as displayed. -/
structure LeaderboardEntry where
  user_id : ℕ
  score : ℚ
  achievement_pct : ℚ
  rank : ℕ
deriving DecidableEq

/-- Map an aggregated user to an entry exactly as the multi-month branch
of `leaderboardData` does: `score = total_achieved`, `achievement_pct`
guarded by `total_target > 0`, `rank` initialised to 0. -/
def toEntry (u : AggUser) : LeaderboardEntry :=
  { user_id := u.user_id
    score := u.total_achieved
    achievement_pct :=
      if 0 < u.total_target then u.total_achieved / u.total_target * 100 else 0
    rank := 0 }

/-- The rank-assignment loop `users.forEach((user, idx) => user.rank = idx + 1)`,
started at offset `k`. -/
def assignRanksFrom (k : ℕ) : List LeaderboardEntry → List LeaderboardEntry
  | [] => []
  | u :: us => { u with rank := k + 1 } :: assignRanksFrom (k + 1) us

/-- The multi-month leaderboard (part_004 lines 236-253): map aggregated
users to entries, sort descending by `achievement_pct` (stable JS sort
with comparator `(a, b) => b.achievement_pct - a.achievement_pct`), then
assign `rank = idx + 1`. -/
def leaderboardData (users : List AggUser) : List LeaderboardEntry :=
  assignRanksFrom 0 (sortDescBy (fun e => e.achievement_pct) (users.map toEntry))

/-- The row order the spec claims: descending `achievement_pct`, ties by
descending `score`, further ties by ascending user identifier. -/
def SpecRowOrder (a b : LeaderboardEntry) : Prop :=
  b.achievement_pct < a.achievement_pct ∨
    (a.achievement_pct = b.achievement_pct ∧ b.score < a.score) ∨
    (a.achievement_pct = b.achievement_pct ∧ a.score = b.score ∧ a.user_id < b.user_id)

instance : DecidableRel SpecRowOrder := fun a b => by
  unfold SpecRowOrder
  infer_instance

/-- The full ranking property claimed by the spec for produced
leaderboards. -/
def SpecRanked (rows : List LeaderboardEntry) : Prop :=
  rows.Pairwise SpecRowOrder ∧
    rows.map LeaderboardEntry.rank = List.range' 1 rows.length

instance : DecidablePred SpecRanked := fun rows => by
  unfold SpecRanked
  infer_instance

theorem assignRanksFrom_map_rank (k : ℕ) (l : List LeaderboardEntry) :
    (assignRanksFrom k l).map LeaderboardEntry.rank = List.range' (k + 1) l.length := by
  induction l generalizing k with
  | nil => simp [assignRanksFrom]
  | cons u us ih =>
    simp only [assignRanksFrom, List.map_cons, List.length_cons, List.range']
    rw [ih (k + 1)]

theorem assignRanksFrom_map_pct (k : ℕ) (l : List LeaderboardEntry) :
    (assignRanksFrom k l).map LeaderboardEntry.achievement_pct
      = l.map LeaderboardEntry.achievement_pct := by
  induction l generalizing k with
  | nil => rfl
  | cons u us ih => simp only [assignRanksFrom, List.map_cons, ih]

theorem pairwise_pct_of_map_eq {l m : List LeaderboardEntry}
    (hmap : l.map LeaderboardEntry.achievement_pct
      = m.map LeaderboardEntry.achievement_pct)
    (h : m.Pairwise (fun a b => b.achievement_pct ≤ a.achievement_pct)) :
    l.Pairwise (fun a b => b.achievement_pct ≤ a.achievement_pct) := by
  have h2 : (m.map LeaderboardEntry.achievement_pct).Pairwise (fun x y => y ≤ x) :=
    List.pairwise_map.mpr h
  rw [← hmap] at h2
  exact List.pairwise_map.mp h2

/-- C2 (counterexample): with two aggregated users of equal
achievement percentage (50%) whose scores are 50 and 100 in aggregation
order, the produced leaderboard keeps them in encounter order, so ties
are not broken by descending score as the spec's ranking rule demands. -/
theorem leaderboard_tie_break_counterexample :
    ¬ SpecRanked (leaderboardData [⟨1, 100, 50⟩, ⟨2, 200, 100⟩]) := by
  intro hspec
  have hdata : leaderboardData [⟨1, 100, 50⟩, ⟨2, 200, 100⟩]
      = [⟨1, 50, 50, 1⟩, ⟨2, 100, 50, 2⟩] := by
    norm_num [leaderboardData, sortDescBy, insertDescBy, assignRanksFrom, toEntry,
      List.foldl]
  rw [hdata] at hspec
  obtain ⟨hpair, -⟩ := hspec
  rw [List.pairwise_cons] at hpair
  have h12 := hpair.1 (LeaderboardEntry.mk 2 100 50 2) (List.mem_singleton_self _)
  norm_num [SpecRowOrder] at h12

/-- C2 (amended): every multi-month leaderboard is sorted descending by
`achievement_pct`, and the assigned ranks form the dense sequence 1..n
with no two rows sharing a rank; ties, however, keep aggregation
(encounter) order rather than being re-ordered by score or user id. -/
theorem leaderboard_sorted_and_ranks_dense (users : List AggUser) :
    (leaderboardData users).Pairwise
        (fun a b => b.achievement_pct ≤ a.achievement_pct) ∧
      (leaderboardData users).map LeaderboardEntry.rank
        = List.range' 1 users.length ∧
      ((leaderboardData users).map LeaderboardEntry.rank).Nodup := by
  have hlen : (sortDescBy (fun e => e.achievement_pct) (users.map toEntry)).length
      = users.length := by
    rw [(sortDescBy_perm _ _).length_eq, List.length_map]
  have hranks : (leaderboardData users).map LeaderboardEntry.rank
      = List.range' 1 users.length := by
    rw [leaderboardData, assignRanksFrom_map_rank, hlen]
  refine ⟨?_, hranks, ?_⟩
  · have hsorted := sortDescBy_pairwise (fun e => e.achievement_pct) (users.map toEntry)
    have hsorted2 : (sortDescBy (fun e => e.achievement_pct) (users.map toEntry)).Pairwise
        (fun a b => b.achievement_pct ≤ a.achievement_pct) :=
      hsorted.imp (fun h => h)
    exact pairwise_pct_of_map_eq (assignRanksFrom_map_pct 0 _) hsorted2
  · rw [hranks]
    exact List.nodup_range' 1 users.length

/-- Parsed category performance row used by PeriodFulfillment:
`parseFloat(p.target_value) || 0` and `parseFloat(p.achieved_value) || 0`. -/
structure CategoryPerformanceRow where
  target_value : ℚ
  achieved_value : ℚ
deriving DecidableEq

/-- Total target over all category rows (part_003 line 169). -/
def fulfillmentTotalTarget (performance : List CategoryPerformanceRow) : ℚ :=
  (performance.map (fun p => p.target_value)).sum

/-- Total achieved over all category rows (part_003 line 170). -/
def fulfillmentTotalAchieved (performance : List CategoryPerformanceRow) : ℚ :=
  (performance.map (fun p => p.achieved_value)).sum

/-- Overall fulfillment percentage (part_003 line 171), with the explicit
zero-target guard. -/
def overallPercentage (performance : List CategoryPerformanceRow) : ℚ :=
  if 0 < fulfillmentTotalTarget performance then
    fulfillmentTotalAchieved performance / fulfillmentTotalTarget performance * 100
  else 0

/-- Per-category breakdown percentage (part_003 line 223). -/
def categoryPct (target achieved : ℚ) : ℚ :=
  if 0 < target then achieved / target * 100 else 0

/-- C3: the achievement percentage is computed under an explicit
zero-target guard everywhere: for a zero-or-negative total target the
leaderboard aggregation, the overall period fulfillment, and the
per-category breakdown all yield exactly 0, and the division form is
taken only when the total target is strictly positive. -/
theorem zero_target_guard (u : AggUser) (perf : List CategoryPerformanceRow)
    (t a : ℚ) :
    (u.total_target ≤ 0 → (toEntry u).achievement_pct = 0) ∧
      (fulfillmentTotalTarget perf ≤ 0 → overallPercentage perf = 0) ∧
      (t ≤ 0 → categoryPct t a = 0) ∧
      (0 < u.total_target →
        (toEntry u).achievement_pct = u.total_achieved / u.total_target * 100) := by
  refine ⟨fun h => ?_, fun h => ?_, fun h => ?_, fun h => ?_⟩
  · simp [toEntry, if_neg (not_lt.mpr h)]
  · rw [overallPercentage, if_neg (not_lt.mpr h)]
  · rw [categoryPct, if_neg (not_lt.mpr h)]
  · simp [toEntry, if_pos h]

/-- Witness for C3 at concrete zero-target and positive-target inputs. -/
theorem zero_target_guard_witness :
    (toEntry ⟨7, 0, 5⟩).achievement_pct = 0 ∧ overallPercentage [⟨0, 3⟩] = 0 ∧
      categoryPct 0 7 = 0 ∧ (toEntry ⟨8, 200, 100⟩).achievement_pct = 50 := by
  refine ⟨(zero_target_guard ⟨7, 0, 5⟩ [⟨0, 3⟩] 0 7).1 (by norm_num),
    (zero_target_guard ⟨7, 0, 5⟩ [⟨0, 3⟩] 0 7).2.1 (by norm_num [fulfillmentTotalTarget]),
    (zero_target_guard ⟨7, 0, 5⟩ [⟨0, 3⟩] 0 7).2.2.1 le_rfl, ?_⟩
  rw [(zero_target_guard ⟨8, 200, 100⟩ [⟨0, 3⟩] 0 7).2.2.2 (by norm_num)]
  norm_num

/-- A leaderboard snapshot as listed for a period; `computed_at` is the
epoch-millisecond timestamp `new Date(s.computed_at).getTime()`. -/
structure Snapshot where
  id : ℕ
  computed_at : ℤ
deriving DecidableEq

/-- latestSnapshot (part_004 lines 143-148): null for an empty snapshot
list, otherwise the first element after sorting by `computed_at`
descending. -/
def latestSnapshot (snapshots : List Snapshot) : Option Snapshot :=
  if snapshots.length = 0 then none
  else (sortDescBy (fun s => s.computed_at) snapshots).head?

/-- C5: for every non-empty snapshot list, the snapshot whose rows are
displayed as the current leaderboard is one of the listed snapshots and
carries the maximal `computed_at` timestamp. -/
theorem latest_snapshot_is_max (snapshots : List Snapshot) (h : snapshots ≠ []) :
    ∃ s, latestSnapshot snapshots = some s ∧ s ∈ snapshots ∧
      ∀ t ∈ snapshots, t.computed_at ≤ s.computed_at := by
  unfold latestSnapshot
  rw [if_neg (by simpa using h)]
  have hpos : 0 < (sortDescBy (fun s => s.computed_at) snapshots).length := by
    rw [(sortDescBy_perm _ _).length_eq]
    exact List.length_pos.mpr h
  obtain ⟨s, hs⟩ : ∃ s, (sortDescBy (fun s => s.computed_at) snapshots).head? = some s := by
    cases hl : sortDescBy (fun s => s.computed_at) snapshots with
    | nil => rw [hl] at hpos; simp at hpos
    | cons a as => exact ⟨a, rfl⟩
  obtain ⟨hmem, hmax⟩ := sortDescBy_head_max (fun s => s.computed_at) snapshots s hs
  exact ⟨s, hs, hmem, hmax⟩

/-- Witness for C5 at a concrete three-snapshot list. -/
theorem latest_snapshot_is_max_witness :
    ∃ s, latestSnapshot [⟨1, 10⟩, ⟨2, 30⟩, ⟨3, 20⟩] = some s ∧
      s ∈ [⟨1, 10⟩, ⟨2, 30⟩, ⟨3, 20⟩] ∧
      ∀ t ∈ [Snapshot.mk 1 10, Snapshot.mk 2 30, Snapshot.mk 3 20],
        t.computed_at ≤ s.computed_at :=
  latest_snapshot_is_max [⟨1, 10⟩, ⟨2, 30⟩, ⟨3, 20⟩] (by simp)

/-- The four membership roles (part_003 line 146). -/
inductive Role where
  | owner
  | manager
  | sales_junior
  | sales_senior
deriving DecidableEq

/-- One week's role weights as held in component state. -/
structure RoleWeights where
  owner : ℚ
  manager : ℚ
  sales_junior : ℚ
  sales_senior : ℚ
deriving DecidableEq

/-- Computed-key assignment `{ ...prev, [role]: v }` on a weights record. -/
def setRoleWeight (w : RoleWeights) (r : Role) (v : ℚ) : RoleWeights :=
  match r with
  | .owner => { w with owner := v }
  | .manager => { w with manager := v }
  | .sales_junior => { w with sales_junior := v }
  | .sales_senior => { w with sales_senior := v }

/-- The other sales role:
`role === 'sales_junior' ? 'sales_senior' : 'sales_junior'`. -/
def otherSalesRole : Role → Role
  | .sales_junior => .sales_senior
  | _ => .sales_junior

/-- handleRoleWeightChange (part_003 lines 436-449), restricted to the
changed week's weights record: clamp the new value into [0, 100], set it
on the changed role, and set `max(0, 100 - newValue)` on the other sales
role. -/
def handleRoleWeightChange (w : RoleWeights) (role : Role) (value : ℚ) : RoleWeights :=
  let newValue := max 0 (min 100 value)
  let otherValue := max 0 (100 - newValue)
  setRoleWeight (setRoleWeight w role newValue) (otherSalesRole role) otherValue

/-- The junior/senior weight pair submitted by handleSaveTargets for one
week (part_003 lines 476-493): 100/0 for an only-juniors team, 0/100 for
an only-seniors team, otherwise the stored junior weight rounded to 2
decimals paired with 100 minus it, also rounded to 2 decimals. -/
def savedRoleWeightPair (onlyJuniors onlySeniors : Bool) (storedJuniorWeight : ℚ) :
    ℚ × ℚ :=
  if onlyJuniors then (100, 0)
  else if onlySeniors then (0, 100)
  else
    let juniorWeight := round2 storedJuniorWeight
    let seniorWeight := round2 (100 - juniorWeight)
    (juniorWeight, seniorWeight)

theorem round2_complement (x : ℚ) : round2 (100 - round2 x) = 100 - round2 x := by
  unfold round2
  have h : (100 - (round (x * 100) : ℤ) / 100) * 100
      = ((10000 - round (x * 100) : ℤ) : ℚ) := by
    push_cast
    ring
  rw [h, round_intCast]
  push_cast
  ring

/-- C4: the pair of sales-role weights always sums to exactly 100:
after any handleRoleWeightChange on a sales role, the state's junior and
senior weights for that week sum to 100, and the weight pair
handleSaveTargets submits sums to 100 in every branch (100/0, 0/100, or
juniorWeight with 100 - juniorWeight). -/
theorem role_weights_sum_to_100 (w : RoleWeights) (role : Role) (value : ℚ)
    (onlyJ onlyS : Bool) (storedJuniorWeight : ℚ)
    (h : role = Role.sales_junior ∨ role = Role.sales_senior) :
    (handleRoleWeightChange w role value).sales_junior
        + (handleRoleWeightChange w role value).sales_senior = 100 ∧
      (savedRoleWeightPair onlyJ onlyS storedJuniorWeight).1
        + (savedRoleWeightPair onlyJ onlyS storedJuniorWeight).2 = 100 := by
  constructor
  · have h2 : max 0 (min 100 value) ≤ 100 := max_le (by norm_num) (min_le_left _ _)
    have h3 : max 0 (100 - max 0 (min 100 value)) = 100 - max 0 (min 100 value) :=
      max_eq_right (by linarith)
    rcases h with h | h <;> subst h <;>
      simp only [handleRoleWeightChange, setRoleWeight, otherSalesRole, h3] <;>
      ring
  · rcases Bool.eq_false_or_eq_true onlyJ with hj | hj <;>
      rcases Bool.eq_false_or_eq_true onlyS with hs | hs <;>
      simp only [savedRoleWeightPair, hj, hs, if_true, if_false, Bool.false_eq_true,
        round2_complement] <;>
      ring

/-- Witness for C4 at a junior-weight change to 30 on a mixed team. -/
theorem role_weights_sum_to_100_witness :
    (handleRoleWeightChange ⟨0, 0, 40, 60⟩ Role.sales_junior 30).sales_junior
        + (handleRoleWeightChange ⟨0, 0, 40, 60⟩ Role.sales_junior 30).sales_senior
        = 100 ∧
      (savedRoleWeightPair false false 30).1 + (savedRoleWeightPair false false 30).2
        = 100 :=
  role_weights_sum_to_100 ⟨0, 0, 40, 60⟩ Role.sales_junior 30 false false 30
    (Or.inl rfl)

/-- handleWeeklyPercentageChange (part_003 lines 402-427): clamp the new
value into [0, 100], write it at the index, and — when entries follow the
index and the redistribution stays non-negative — rescale the later
entries proportionally so their sum becomes the old later-sum plus the
freed difference (equal split when the old later-sum is 0). -/
def handleWeeklyPercentageChange (weeklyPercentages : List ℚ) (index : ℕ)
    (value : ℚ) : List ℚ :=
  let newValue := max 0 (min 100 value)
  let oldValue := weeklyPercentages.getD index 0
  let newPercentages := weeklyPercentages.set index newValue
  let diff := oldValue - newValue
  let itemsBelow := newPercentages.drop (index + 1)
  let totalBelow := itemsBelow.sum
  if 0 < itemsBelow.length ∧ 0 ≤ totalBelow + diff then
    newPercentages.take (index + 1) ++
      itemsBelow.map (fun p =>
        if 0 < totalBelow then p / totalBelow * (totalBelow + diff)
        else (totalBelow + diff) / itemsBelow.length)
  else newPercentages

theorem sum_map_div_mul (l : List ℚ) (t n : ℚ) :
    (l.map (fun p => p / t * n)).sum = l.sum / t * n := by
  induction l with
  | nil => simp
  | cons x xs ih =>
    simp only [List.map_cons, List.sum_cons, ih]
    ring

theorem sum_map_const_rat (l : List ℚ) (c : ℚ) :
    (l.map (fun _ => c)).sum = l.length * c := by
  induction l with
  | nil => simp
  | cons x xs ih =>
    simp only [List.map_cons, List.sum_cons, ih, List.length_cons]
    push_cast
    ring

theorem sum_set_getD (l : List ℚ) (i : ℕ) (a : ℚ) (h : i < l.length) :
    (l.set i a).sum = l.sum - l.getD i 0 + a := by
  induction l generalizing i with
  | nil => simp at h
  | cons x xs ih =>
    cases i with
    | zero =>
      simp only [List.set, List.sum_cons, List.getD_cons_zero]
      ring
    | succ n =>
      simp only [List.set, List.sum_cons, List.getD_cons_succ]
      rw [ih n (by simpa using h)]
      ring

/-- C9: when at least one entry follows the changed index and the
redistribution condition (sum of the later entries plus the difference
between old and new value is non-negative) holds, the update preserves
the total sum of the percentages, and the entry at the changed index is
the input value clamped into [0, 100]. -/
theorem weekly_percentage_change_preserves_sum (l : List ℚ) (index : ℕ) (value : ℚ)
    (hidx : index + 1 < l.length)
    (hcond : 0 ≤ (l.drop (index + 1)).sum
      + (l.getD index 0 - max 0 (min 100 value))) :
    (handleWeeklyPercentageChange l index value).sum = l.sum ∧
      (handleWeeklyPercentageChange l index value).getD index 0
        = max 0 (min 100 value) ∧
      0 ≤ max 0 (min 100 value) ∧ max 0 (min 100 value) ≤ 100 := by
  have hlt : index < l.length := Nat.lt_of_succ_lt hidx
  set n := max 0 (min 100 value) with hn
  set o := l.getD index 0 with ho
  set l1 := l.set index n with hl1
  have hdropeq : l1.drop (index + 1) = l.drop (index + 1) := by
    rw [hl1, List.drop_set]
    exact if_pos (Nat.lt_succ_self index)
  have hlen1 : l1.length = l.length := by rw [hl1, List.length_set]
  set B := l1.drop (index + 1) with hB
  set T := B.sum with hT
  have hTl : T = (l.drop (index + 1)).sum := by rw [hT, hdropeq]
  have hBlen : 0 < B.length := by
    rw [hB, List.length_drop, hlen1]
    omega
  have hcond2 : 0 ≤ T + (o - n) := by rw [hTl]; exact hcond
  have hif : handleWeeklyPercentageChange l index value
      = l1.take (index + 1) ++
        B.map (fun p => if 0 < T then p / T * (T + (o - n)) else (T + (o - n)) / B.length) := by
    rw [handleWeeklyPercentageChange]
    simp only [← hn, ← ho, ← hl1, ← hB, ← hT]
    rw [if_pos ⟨hBlen, hcond2⟩]
  have hmapsum : (B.map (fun p =>
      if 0 < T then p / T * (T + (o - n)) else (T + (o - n)) / B.length)).sum
      = T + (o - n) := by
    by_cases hTpos : 0 < T
    · have : (fun p => if 0 < T then p / T * (T + (o - n)) else (T + (o - n)) / B.length)
          = fun p => p / T * (T + (o - n)) := by
        funext p
        rw [if_pos hTpos]
      rw [this, sum_map_div_mul, ← hT, div_self (ne_of_gt hTpos), one_mul]
    · have : (fun p => if 0 < T then p / T * (T + (o - n)) else (T + (o - n)) / B.length)
          = fun _ => (T + (o - n)) / B.length := by
        funext p
        rw [if_neg hTpos]
      rw [this, sum_map_const_rat, mul_div_cancel₀]
      exact_mod_cast Nat.pos_iff_ne_zero.mp hBlen
  have htakesum : (l1.take (index + 1)).sum = l1.sum - T := by
    have h := congrArg List.sum (List.take_append_drop (index + 1) l1)
    rw [List.sum_append, ← hB, ← hT] at h
    linarith
  have hl1sum : l1.sum = l.sum - o + n := by
    rw [hl1, ho]
    exact sum_set_getD l index n hlt
  refine ⟨?_, ?_, le_max_left _ _, max_le (by norm_num) (min_le_left _ _)⟩
  · rw [hif, List.sum_append, htakesum, hmapsum, hl1sum]
    ring
  · rw [hif]
    have hlen_take : (l1.take (index + 1)).length = index + 1 := by
      rw [List.length_take, hlen1]
      omega
    rw [List.getD_append _ _ _ _ (by rw [hlen_take]; omega)]
    have heq : (l1.take (index + 1)).getD index 0 = l1.getD index 0 := by
      rw [List.getD_eq_getElem?_getD, List.getD_eq_getElem?_getD, List.getElem?_take,
        if_pos (Nat.lt_succ_self index)]
    rw [heq, hl1, List.getD_eq_getElem?_getD, List.getElem?_set_eq_of_lt _ hlt]
    rfl

/-- Witness for C9 at the concrete list [40, 30, 30], index 0, value 20. -/
theorem weekly_percentage_change_preserves_sum_witness :
    (handleWeeklyPercentageChange [40, 30, 30] 0 20).sum = ([40, 30, 30] : List ℚ).sum ∧
      (handleWeeklyPercentageChange [40, 30, 30] 0 20).getD 0 0
        = max 0 (min 100 20) ∧
      0 ≤ max 0 (min 100 (20 : ℚ)) ∧ max 0 (min 100 (20 : ℚ)) ≤ 100 :=
  weekly_percentage_change_preserves_sum [40, 30, 30] 0 20 (by norm_num)
    (by norm_num)

/-- The period lifecycle statuses. -/
inductive PeriodStatus where
  | draft
  | published
  | locked
  | archived
deriving DecidableEq

/-- Status-change requests reachable from the current-month overview card
(part_003 lines 781-798): Publish on a draft period, Lock on a published
one, nothing otherwise. -/
def overviewStatusActions : PeriodStatus → List PeriodStatus
  | .draft => [.published]
  | .published => [.locked]
  | _ => []

/-- Status-change requests reachable from a history card (part_003 lines
941-975): Publish on draft, Unpublish and Lock on published, Archive on
locked, nothing on archived. -/
def historyStatusActions : PeriodStatus → List PeriodStatus
  | .draft => [.published]
  | .published => [.draft, .locked]
  | .locked => [.archived]
  | .archived => []

/-- The four transition requests the frontend is claimed to restrict
itself to. -/
def allowedTransitionPairs : List (PeriodStatus × PeriodStatus) :=
  [(.draft, .published), (.published, .draft), (.published, .locked),
    (.locked, .archived)]

/-- C10: every status-change request the UI can issue, from the overview
card or from a history card, is one of the four allowed pairs; in
particular no request leaves the archived status and no draft period is
locked or archived directly. -/
theorem status_requests_allowed (s t : PeriodStatus)
    (h : t ∈ overviewStatusActions s ∨ t ∈ historyStatusActions s) :
    (s, t) ∈ allowedTransitionPairs := by
  cases s <;> cases t <;> revert h <;> decide

/-- Witness for C10 at the Unpublish request (published → draft). -/
theorem status_requests_allowed_witness :
    (PeriodStatus.published, PeriodStatus.draft) ∈ allowedTransitionPairs :=
  status_requests_allowed PeriodStatus.published PeriodStatus.draft
    (Or.inr (by decide))

/-- The three kinds of configuration writes handleSaveTargets starts in
parallel via Promise.all (part_003 lines 497-513). -/
inductive WriteOp where
  | monthlyTargets
  | weeklyDistribution
  | roleWeights (weekIndex : ℕ)
deriving DecidableEq

/-- Events observable in one execution of handleSaveTargets. -/
inductive SaveEvent where
  | writeCompleted (op : WriteOp)
  | recomputeInvoked
deriving DecidableEq

/-- The write operations one execution issues: the monthly-target upsert,
the weekly-distribution upsert, and one role-weight upsert per week
(weeks.map with weekIndex = idx + 1). -/
def writeOps (numWeeks : ℕ) : List WriteOp :=
  WriteOp.monthlyTargets :: WriteOp.weeklyDistribution ::
    (List.range numWeeks).map (fun i => WriteOp.roleWeights (i + 1))

/-- Environment of one execution: which of the awaited writes succeed. -/
structure SaveEnv where
  monthlyOk : Bool
  distributionOk : Bool
  roleWeightsOk : ℕ → Bool

def writeOk (env : SaveEnv) : WriteOp → Bool
  | .monthlyTargets => env.monthlyOk
  | .weeklyDistribution => env.distributionOk
  | .roleWeights w => env.roleWeightsOk w

def allWritesOk (env : SaveEnv) (numWeeks : ℕ) : Bool :=
  (writeOps numWeeks).all (writeOk env)

/-- Event trace of one execution of handleSaveTargets (part_003 lines
496-525): `await Promise.all([...])` completes the successful writes;
only when every write succeeds does control reach
`await recomputeUserWeekTargets(...)` — a rejected promise makes the
await throw into the catch block, skipping the recompute call. -/
def handleSaveTargetsTrace (env : SaveEnv) (numWeeks : ℕ) : List SaveEvent :=
  ((writeOps numWeeks).filter (writeOk env)).map SaveEvent.writeCompleted ++
    (if allWritesOk env numWeeks then [SaveEvent.recomputeInvoked] else [])

/-- C8: in every execution of handleSaveTargets the recompute operation
is invoked exactly when every configuration write (monthly targets,
weekly distribution, and each per-week role-weight upsert) succeeded,
and in that case the trace is all write completions followed by the
recompute invocation; if any write fails, recompute is never invoked. -/
theorem recompute_only_after_all_writes (env : SaveEnv) (numWeeks : ℕ) :
    (SaveEvent.recomputeInvoked ∈ handleSaveTargetsTrace env numWeeks ↔
        allWritesOk env numWeeks = true) ∧
      (allWritesOk env numWeeks = true →
        handleSaveTargetsTrace env numWeeks
          = (writeOps numWeeks).map SaveEvent.writeCompleted
              ++ [SaveEvent.recomputeInvoked]) := by
  have hfull : allWritesOk env numWeeks = true →
      handleSaveTargetsTrace env numWeeks
        = (writeOps numWeeks).map SaveEvent.writeCompleted
            ++ [SaveEvent.recomputeInvoked] := by
    intro hall
    rw [handleSaveTargetsTrace, if_pos hall]
    congr 2
    rw [List.filter_eq_self]
    intro a ha
    exact List.all_eq_true.mp hall a ha
  refine ⟨⟨?_, ?_⟩, hfull⟩
  · intro hmem
    by_contra hno
    rw [handleSaveTargetsTrace, if_neg hno, List.append_nil] at hmem
    obtain ⟨op, -, hop⟩ := List.mem_map.mp hmem
    exact SaveEvent.noConfusion hop
  · intro hall
    rw [hfull hall]
    exact List.mem_append_right _ (List.mem_singleton_self _)

/-- Witness for C8: with every write succeeding over a two-week period,
the trace is the three write completions followed by recompute. -/
theorem recompute_only_after_all_writes_witness :
    handleSaveTargetsTrace ⟨true, true, fun _ => true⟩ 2
      = (writeOps 2).map SaveEvent.writeCompleted ++ [SaveEvent.recomputeInvoked] :=
  (recompute_only_after_all_writes ⟨true, true, fun _ => true⟩ 2).2 (by decide)

/-- Modelled from the spec: floor to 2 decimal places,
as in `base = floor(roleTarget / n, 2 decimals)`. The Allocation Engine
this belongs to is backend code not present in this repository — the
frontend only invokes it through `recomputeUserWeekTargets`. -/
def floor2 (q : ℚ) : ℚ := (⌊q * 100⌋ : ℤ) / 100

/-- Modelled from the spec: the per-member base share
`base = floor(roleTarget / n, 2 decimals)`. -/
def allocBase (roleTarget : ℚ) (n : ℕ) : ℚ := floor2 (roleTarget / n)

/-- Modelled from the spec: `remainder = roleTarget − base × n`. -/
def allocRemainder (roleTarget : ℚ) (n : ℕ) : ℚ :=
  roleTarget - allocBase roleTarget n * n

/-- Modelled from the spec: the remainder is distributed as +0.01
increments to the first `remainder × 100` members in a canonical
deterministic order — member i receives `base + 0.01` iff
`i < remainder × 100`. -/
def allocShares (roleTarget : ℚ) (n : ℕ) : List ℚ :=
  (List.range n).map (fun i : ℕ =>
    if (i : ℚ) < allocRemainder roleTarget n * 100
    then allocBase roleTarget n + 1/100
    else allocBase roleTarget n)

theorem alloc_base_eq (k n : ℕ) :
    allocBase ((k : ℚ) / 100) n = ((k / n : ℕ) : ℚ) / 100 := by
  unfold allocBase floor2
  have h1 : (k : ℚ) / 100 / n * 100 = (k : ℚ) / n := by
    rw [div_div, mul_comm (100 : ℚ) (n : ℚ), ← div_div, div_mul_cancel₀]
    norm_num
  rw [h1, Rat.floor_natCast_div_natCast]
  congr 1

theorem alloc_remainder_eq (k n : ℕ) :
    allocRemainder ((k : ℚ) / 100) n * 100 = ((k % n : ℕ) : ℚ) := by
  unfold allocRemainder
  rw [alloc_base_eq k n]
  have hdm : n * (k / n) + k % n = k := Nat.div_add_mod k n
  have hcast : (n : ℚ) * ((k / n : ℕ) : ℚ) + ((k % n : ℕ) : ℚ) = (k : ℚ) := by
    exact_mod_cast hdm
  linear_combination -hcast

theorem sum_range_map_ite (n r : ℕ) (b c : ℚ) :
    ((List.range n).map (fun i : ℕ => if (i : ℚ) < (r : ℚ) then b + c else b)).sum
      = n * b + (min r n) * c := by
  induction n with
  | zero => simp
  | succ m ih =>
    rw [List.range_succ, List.map_append, List.sum_append, ih]
    simp only [List.map_cons, List.map_nil, List.sum_cons, List.sum_nil]
    by_cases h : m < r
    · rw [if_pos (by exact_mod_cast h)]
      rw [min_eq_right (le_of_lt h), min_eq_right h]
      push_cast
      ring
    · rw [if_neg (by exact_mod_cast h)]
      rw [min_eq_left (by omega), min_eq_left (by omega)]
      push_cast
      ring

/-- C7: for every non-negative fixed-point role target (`k` cents) and
every member count n ≥ 1, the spec-modelled remainder-distribution step
yields exactly n per-user shares whose sum equals the role target
exactly — no fractional loss or gain. -/
theorem alloc_shares_sum_exact (k n : ℕ) (hn : 1 ≤ n) :
    (allocShares ((k : ℚ) / 100) n).length = n ∧
      (allocShares ((k : ℚ) / 100) n).sum = (k : ℚ) / 100 := by
  refine ⟨by simp [allocShares], ?_⟩
  unfold allocShares
  have hfun : (fun i : ℕ =>
      if (i : ℚ) < allocRemainder ((k : ℚ) / 100) n * 100
      then allocBase ((k : ℚ) / 100) n + 1/100
      else allocBase ((k : ℚ) / 100) n)
      = (fun i : ℕ =>
        if (i : ℚ) < ((k % n : ℕ) : ℚ)
        then ((k / n : ℕ) : ℚ) / 100 + 1/100
        else ((k / n : ℕ) : ℚ) / 100) := by
    rw [alloc_remainder_eq k n, alloc_base_eq k n]
  rw [hfun, sum_range_map_ite n (k % n) (((k / n : ℕ) : ℚ) / 100) (1/100)]
  rw [min_eq_left (le_of_lt (Nat.mod_lt k (by omega)))]
  have hdm : n * (k / n) + k % n = k := Nat.div_add_mod k n
  have hcast : (n : ℚ) * ((k / n : ℕ) : ℚ) + ((k % n : ℕ) : ℚ) = (k : ℚ) := by
    exact_mod_cast hdm
  linear_combination hcast / 100

/-- Witness for C7: the spec's example, roleTarget = 100.00 with 3
members — 3 shares summing to exactly 100.00. -/
theorem alloc_shares_sum_exact_witness :
    (allocShares ((10000 : ℚ) / 100) 3).length = 3 ∧
      (allocShares ((10000 : ℚ) / 100) 3).sum = (10000 : ℚ) / 100 := by
  have h := alloc_shares_sum_exact 10000 3 (by norm_num)
  exact_mod_cast h

/-- The character for the decimal digit d. -/
def digitChar (d : ℕ) : Char := Char.ofNat (48 + d)

/-- Decimal digit characters of n (most significant first), with `fuel`
bounding the recursion depth. -/
def natDigitsAux : ℕ → ℕ → List Char
  | 0, _ => []
  | fuel + 1, n =>
    if n = 0 then [] else natDigitsAux fuel (n / 10) ++ [digitChar (n % 10)]

/-- Decimal representation of a natural number ("0" for 0). -/
def natDigitsStr (n : ℕ) : List Char :=
  if n = 0 then [digitChar 0] else natDigitsAux n n

/-- Minimal number of fractional decimal digits needed to write q
exactly, capped at 20 (ECMAScript prints at most 17 significant digits;
every value serialized here is a finite decimal). -/
def decimalsNeeded (q : ℚ) : ℕ :=
  ((List.range 21).find? (fun e => (10 ^ e : ℕ) % q.den == 0)).getD 20

/-- Digit characters of n, zero-padded on the left to length `len`. -/
def paddedDigits (len n : ℕ) : List Char :=
  ((List.range len).reverse).map (fun i => digitChar (n / 10 ^ i % 10))

/-- Model of the ECMAScript Number→String conversion performed by
`String(value ?? 0)` on decimal-valued numbers: the shortest decimal
representation — no decimal point for integer values (String(5) is
"5") and only as many fractional digits as the value needs. -/
def jsNumberToString (q : ℚ) : String :=
  let e := decimalsNeeded q
  let m := (q.num.natAbs * 10 ^ e) / q.den
  let sign : List Char := if q < 0 then ['-'] else []
  if e = 0 then String.mk (sign ++ natDigitsStr m)
  else String.mk ((sign ++ natDigitsStr (m / 10 ^ e)) ++
    ('.' :: paddedDigits e (m % 10 ^ e)))

/-- Model of `Number.prototype.toFixed(2)`: round the value to 2
decimals (ECMAScript picks the larger candidate on ties, `⌊x·100 + 1/2⌋`)
and print it with exactly two fractional digits. -/
def toFixed2 (q : ℚ) : String :=
  String.mk
    (((if round (q * 100) < 0 then ['-'] else []) ++
        natDigitsStr ((round (q * 100)).natAbs / 100)) ++
      ('.' :: [digitChar ((round (q * 100)).natAbs / 10 % 10),
        digitChar ((round (q * 100)).natAbs % 10)]))

/-- Number of fractional digits of a decimal string: the length of the
suffix after the last '.', and 0 when there is no decimal point. -/
def fracDigits (s : String) : ℕ :=
  if ('.' : Char) ∈ s.data then (s.data.reverse.takeWhile (fun c => c ≠ '.')).length
  else 0

theorem string_data_mk (cs : List Char) : (String.mk cs).data = cs := rfl

theorem digitChar_ne_dot (d : ℕ) (h : d < 10) : digitChar d ≠ '.' := by
  interval_cases d <;> decide

theorem fracDigits_toFixed2 (q : ℚ) : fracDigits (toFixed2 q) = 2 := by
  have h1 : digitChar ((round (q * 100)).natAbs % 10) ≠ '.' :=
    digitChar_ne_dot _ (Nat.mod_lt _ (by norm_num))
  have h2 : digitChar ((round (q * 100)).natAbs / 10 % 10) ≠ '.' :=
    digitChar_ne_dot _ (Nat.mod_lt _ (by norm_num))
  simp only [fracDigits, toFixed2, string_data_mk]
  rw [if_pos (by simp)]
  rw [List.reverse_append]
  simp [List.takeWhile_cons, h1, h2]

/-- The monthly-target value strings built by handleSaveTargets
(part_003 lines 499-505): `target_value: String(value ?? 0)` for each
configured category value. -/
def monthlyTargetStrings (shopTargets : List ℚ) : List String :=
  shopTargets.map jsNumberToString

/-- The percentage strings in the weekly-distribution payload (part_003
lines 507-510): `percentage: p.toFixed(2)` over the prepared
percentages (the accompanying `week_index: idx + 1` carries no decimal
value). -/
def weeklyDistributionStrings (weeklyPercentages : List ℚ) : List String :=
  (prepareWeeklyPercentages weeklyPercentages).map toFixed2

/-- The weight strings in one week's role-weight payload (part_003 lines
490-493): `weight_percentage: juniorWeight.toFixed(2)` and
`seniorWeight.toFixed(2)`. -/
def roleWeightStrings (onlyJuniors onlySeniors : Bool) (storedJuniorWeight : ℚ) :
    List String :=
  [toFixed2 (savedRoleWeightPair onlyJuniors onlySeniors storedJuniorWeight).1,
    toFixed2 (savedRoleWeightPair onlyJuniors onlySeniors storedJuniorWeight).2]

/-- C6 (counterexample): the monthly-target payload serializes the value
5 via `String(value ?? 0)` as "5" — no decimal point and zero fractional
digits — so not every value handleSaveTargets sends across the API
boundary is a 2-fractional-digit fixed-point string. -/
theorem monthly_target_string_counterexample :
    monthlyTargetStrings [5] = ["5"] ∧
      ¬ (∀ s ∈ monthlyTargetStrings [5], fracDigits s = 2) := by
  constructor
  · decide
  · decide

/-- C6 (amended): the weekly-distribution and role-weight payload values
are always strings with exactly 2 fractional digits (built with
`toFixed(2)`), but monthly-target values are serialized with
`String(value ?? 0)`, which keeps the number's own shortest decimal form
and need not carry 2 fractional digits. -/
theorem percentage_strings_have_two_decimals (weeklyPercentages : List ℚ)
    (onlyJ onlyS : Bool) (storedJuniorWeight : ℚ) (s : String)
    (h : s ∈ weeklyDistributionStrings weeklyPercentages ∨
      s ∈ roleWeightStrings onlyJ onlyS storedJuniorWeight) :
    fracDigits s = 2 := by
  rcases h with h | h
  · obtain ⟨p, -, rfl⟩ := List.mem_map.mp h
    exact fracDigits_toFixed2 p
  · rcases List.mem_cons.mp h with h2 | h2
    · rw [h2]; exact fracDigits_toFixed2 _
    · rcases List.mem_cons.mp h2 with h3 | h3
      · rw [h3]; exact fracDigits_toFixed2 _
      · exact absurd h3 (List.not_mem_nil s)

/-- Witness for C6 (amended): the junior weight string of an
only-juniors week ("100.00") has exactly 2 fractional digits. -/
theorem percentage_strings_have_two_decimals_witness :
    fracDigits (toFixed2 100) = 2 :=
  percentage_strings_have_two_decimals [] true false 0 (toFixed2 100)
    (Or.inr (by simp [roleWeightStrings, savedRoleWeightPair]))

end BrightSigna
